import Mathlib

/-!
Verification of the memory-chunking layer of the Protogen Discord bot
(`groq_memory_manager.py`): the `MemoryChunk` data model, word-based
content splitting, per-user chunk storage with budget-driven eviction,
filtered retrieval, and save/load persistence.  Every definition below is
a shallow embedding of the corresponding Python function; machine- and
library-level behaviour (Python `str.split`, `str.join`, `dict`,
`list.sort`, `list.remove`) is modelled explicitly.
-/

/-- Python `sep.join(xs)`: empty string for `[]`, otherwise the elements
interleaved with `sep`. -/
def pyJoin (sep : String) : List String → String
  | [] => ""
  | [x] => x
  | x :: y :: rest => x ++ sep ++ pyJoin sep (y :: rest)

/-- Worker for `pyWords`: walks the characters, accumulating the current
word in reverse; whitespace runs end a word, empty words are dropped
(Python `str.split()` with no argument). -/
def wordsAux : List Char → List Char → List String
  | [], acc => if acc = [] then [] else [String.mk acc.reverse]
  | c :: rest, acc =>
    if c.isWhitespace then
      if acc = [] then wordsAux rest []
      else String.mk acc.reverse :: wordsAux rest []
    else wordsAux rest (c :: acc)

/-- Python `content.split()`: whitespace-delimited words, no empties. -/
def pyWords (s : String) : List String := wordsAux s.data []

/-- `MemoryChunk` from `groq_memory_manager.py`: id, content, timestamp,
category, size and metadata.  Timestamps and ids are modelled as naturals
(the store supplies them from a monotone clock, mirroring `time.time()`
and `uuid.uuid4()` freshness). -/
structure MemoryChunk where
  id : Nat
  content : String
  timestamp : Nat
  category : String
  size : Nat
  metadata : List (String × String)
deriving DecidableEq, Repr

/-- `MemoryChunk.__init__`: `self.size = len(content)` (Python `len` on a
`str` counts code points) and `self.metadata = {}`. -/
def MemoryChunk.make (id : Nat) (content : String) (timestamp : Nat)
    (category : String) : MemoryChunk :=
  { id := id, content := content, timestamp := timestamp,
    category := category, size := content.length, metadata := [] }

/-- `sum(chunk.size for chunk in chunks)`. -/
def sumSizes : List MemoryChunk → Nat
  | [] => 0
  | c :: rest => c.size + sumSizes rest

/-- The word-accumulation loop of `split_memory_content`: emits the
current buffer whenever the next word would overflow `maxSize`
(counting one separator byte per word), then flushes a non-empty
trailing buffer. -/
def splitWords (maxSize : Nat) : List String → List String → Nat → List (List String)
  | [], cur, _ => if cur = [] then [] else [cur]
  | w :: ws, cur, sz =>
    if maxSize < sz + w.length then
      cur :: splitWords maxSize ws [w] (w.length + 1)
    else
      splitWords maxSize ws (cur ++ [w]) (sz + w.length + 1)

/-- `UserMemoryManager.split_memory_content`: split text into word-packed
chunks of at most `maxSize` (the Python default is 4000).  `ts` stands for
the `time.time()` value the produced chunks receive. -/
def splitMemoryContent (ts : Nat) (content : String) (maxSize : Nat) : List MemoryChunk :=
  (splitWords maxSize (pyWords content) [] 0).map
    (fun g => MemoryChunk.make 0 (pyJoin " " g) ts "default")

/-- Python `dict` lookup modelled on an association list (first match). -/
def dictGet {α : Type} (d : List (String × α)) (k : String) : Option α :=
  match d with
  | [] => none
  | (k', v) :: rest => if k' = k then some v else dictGet rest k

/-- Python `dict` assignment: overwrite the first matching key in place,
or append a new entry (insertion order preserved). -/
def dictSet {α : Type} (d : List (String × α)) (k : String) (v : α) :
    List (String × α) :=
  match d with
  | [] => [(k, v)]
  | (k', v') :: rest =>
    if k' = k then (k, v) :: rest else (k', v') :: dictSet rest k v

/-- The mutable state of `UserMemoryManager`: `max_total_memory_mb`
converted to bytes, `self.user_memories`, `self.memory_index`
(user → category → chunk ids), and a clock providing fresh
timestamps/ids. -/
structure Store where
  maxBytes : Nat
  userMemories : List (String × List MemoryChunk)
  memoryIndex : List (String × List (String × List Nat))
  clock : Nat
deriving DecidableEq, Repr

/-- A manager with no users yet. -/
def emptyStore (maxBytes : Nat) : Store :=
  { maxBytes := maxBytes, userMemories := [], memoryIndex := [], clock := 0 }

/-- Stable insertion into an ascending-by-timestamp list: an element is
placed after every strictly older element (Python `sorted` stability). -/
def insertByTs (c : MemoryChunk) : List MemoryChunk → List MemoryChunk
  | [] => [c]
  | d :: rest =>
    if d.timestamp < c.timestamp then d :: insertByTs c rest
    else c :: d :: rest

/-- `sorted(chunks, key=lambda x: x.timestamp)`: stable ascending sort. -/
def sortByTs : List MemoryChunk → List MemoryChunk
  | [] => []
  | c :: rest => insertByTs c (sortByTs rest)

/-- Stable insertion for the descending sort used by retrieval. -/
def insertByTsDesc (c : MemoryChunk) : List MemoryChunk → List MemoryChunk
  | [] => [c]
  | d :: rest =>
    if c.timestamp < d.timestamp then d :: insertByTsDesc c rest
    else c :: d :: rest

/-- `chunks.sort(key=lambda x: x.timestamp, reverse=True)`: stable
descending sort. -/
def sortByTsDesc : List MemoryChunk → List MemoryChunk
  | [] => []
  | c :: rest => insertByTsDesc c (sortByTsDesc rest)

/-- The selection loop of `prune_memory_chunks`: collect chunks from the
sorted list while the freed space is still below `req`. -/
def evictLoop (req : Nat) : Nat → List MemoryChunk → List MemoryChunk
  | _, [] => []
  | freed, c :: rest =>
    if req ≤ freed then [] else c :: evictLoop req (freed + c.size) rest

/-- Python `list.remove(chunk)` on a list of `MemoryChunk` objects:
object identity is modelled by the chunk id. -/
def removeFirstById (l : List MemoryChunk) (c : MemoryChunk) : List MemoryChunk :=
  match l with
  | [] => []
  | d :: rest => if d.id = c.id then rest else d :: removeFirstById rest c

/-- `if chunk.id in chunk_ids: chunk_ids.remove(chunk.id)`. -/
def removeFirstNat (l : List Nat) (n : Nat) : List Nat :=
  match l with
  | [] => []
  | m :: rest => if m = n then rest else m :: removeFirstNat rest n

/-- Python exceptions the embedded operations can raise. -/
inductive PyError where
  | keyError
deriving DecidableEq, Repr

/-- `UserMemoryManager.prune_memory_chunks`: sort the user's chunks by
timestamp, collect the oldest ones until the freed space reaches
`req`, then remove them from the primary list and from every category
bucket of `self.memory_index[user_id]` — an access that raises
`KeyError` when the user has no index entry and at least one chunk is
to be removed. -/
def pruneMemoryChunks (s : Store) (uid : String) (req : Nat) :
    Except PyError Store :=
  match dictGet s.userMemories uid with
  | none => .ok s
  | some chunks =>
    let pruned := evictLoop req 0 (sortByTs chunks)
    if pruned = [] then .ok s
    else
      match dictGet s.memoryIndex uid with
      | none => .error .keyError
      | some idxU =>
        let remaining := pruned.foldl removeFirstById chunks
        let idxU' := pruned.foldl
          (fun idx c => idx.map (fun p => (p.1, removeFirstNat p.2 c.id))) idxU
        .ok { s with
                userMemories := dictSet s.userMemories uid remaining,
                memoryIndex := dictSet s.memoryIndex uid idxU' }

/-- The insertion half of `add_memory_chunk`, after any pruning: append
the chunk to the user's list (creating it if needed) and register the
chunk id under its category in the index (creating entries if needed). -/
def addCommit (s1 : Store) (uid category : String) (chunk : MemoryChunk) : Store :=
  let mems := dictSet s1.userMemories uid
    (((dictGet s1.userMemories uid).getD []) ++ [chunk])
  let idxU := (dictGet s1.memoryIndex uid).getD []
  let catIds := (dictGet idxU category).getD []
  let idx := dictSet s1.memoryIndex uid (dictSet idxU category (catIds ++ [chunk.id]))
  { s1 with userMemories := mems, memoryIndex := idx, clock := s1.clock + 1 }

/-- `UserMemoryManager.add_memory_chunk`: build the chunk, run the budget
check against the pre-insertion total, prune if it would overflow
(propagating any exception), then insert the chunk and return its id. -/
def addMemoryChunk (s : Store) (uid content category : String)
    (metadata : List (String × String)) : Except PyError (Store × Nat) :=
  let chunk0 := MemoryChunk.make s.clock content s.clock category
  let chunk := if metadata = [] then chunk0 else { chunk0 with metadata := metadata }
  let current := sumSizes ((dictGet s.userMemories uid).getD [])
  match (if s.maxBytes < current + chunk.size
         then pruneMemoryChunks s uid chunk.size
         else .ok s) with
  | .error e => .error e
  | .ok s1 => .ok (addCommit s1 uid category chunk, chunk.id)

/-- One `add_memory_chunk` call (content and category for a user). -/
structure AddOp where
  uid : String
  content : String
  category : String
deriving DecidableEq, Repr

/-- Run a sequence of `add_memory_chunk` calls, propagating exceptions. -/
def applyAdds (s : Store) : List AddOp → Except PyError Store
  | [] => .ok s
  | op :: ops =>
    match addMemoryChunk s op.uid op.content op.category [] with
    | .error e => .error e
    | .ok r => applyAdds r.1 ops

/-- Python truthiness of the `category` argument (`if category:`):
`None` and the empty string are falsy. -/
def truthyStr : Option String → Bool
  | none => false
  | some c => c ≠ ""

/-- Python truthiness of the `min_timestamp` argument
(`if min_timestamp:`): `None` and `0` are falsy. -/
def truthyNat : Option Nat → Bool
  | none => false
  | some t => t ≠ 0

/-- `UserMemoryManager.retrieve_memory_chunks`: optional category and
timestamp-floor filters, then an in-place descending sort by timestamp
and a `[:max_chunks]` slice.  When both filters are falsy the sorted
list *is* the user's stored list (Python aliasing), so the store comes
back with that user's list reordered; otherwise the sort acts on a
fresh list and the store is untouched. -/
def retrieveMemoryChunks (s : Store) (uid : String) (category : Option String)
    (maxChunks : Nat) (minTs : Option Nat) : List MemoryChunk × Store :=
  match dictGet s.userMemories uid with
  | none => ([], s)
  | some chunks =>
    let c1 := if truthyStr category
              then chunks.filter (fun c => c.category = category.getD "")
              else chunks
    let c2 := if truthyNat minTs
              then c1.filter (fun c => minTs.getD 0 ≤ c.timestamp)
              else c1
    let sorted := sortByTsDesc c2
    if truthyStr category || truthyNat minTs then (sorted.take maxChunks, s)
    else (sorted.take maxChunks,
          { s with userMemories := dictSet s.userMemories uid sorted })

/-- One serialized chunk record as written by `save_memory_state`
(`id`, `content`, `timestamp`, `category`, `metadata`). -/
structure SChunk where
  id : Nat
  content : String
  timestamp : Nat
  category : String
  metadata : List (String × String)
deriving DecidableEq, Repr

/-- Serialize a chunk list as `save_memory_state` writes it. -/
def serChunks (cs : List MemoryChunk) : List SChunk :=
  cs.map (fun c => ⟨c.id, c.content, c.timestamp, c.category, c.metadata⟩)

/-- Serialize one user's chunk list to its `…_memory_state.json` file. -/
def saveEntries (entries : List (String × List MemoryChunk)) :
    List (String × List SChunk) :=
  entries.map (fun p => (p.1 ++ "_memory_state.json", serChunks p.2))

/-- `UserMemoryManager.save_memory_state`: one file per user, named
`f"{user_id}_memory_state.json"`. -/
def saveMemoryState (s : Store) : List (String × List SChunk) :=
  saveEntries s.userMemories

/-- Worker for `pySplitChar` (Python `str.split(sep)` with a one-char
separator): splits at every separator, keeping empty pieces. -/
def splitCharAux (sep : Char) : List Char → List Char → List String
  | [], acc => [String.mk acc.reverse]
  | c :: rest, acc =>
    if c = sep then String.mk acc.reverse :: splitCharAux sep rest []
    else splitCharAux sep rest (c :: acc)

/-- Python `s.split(sep)` for a single-character separator. -/
def pySplitChar (sep : Char) (s : String) : List String :=
  splitCharAux sep s.data []

/-- `filename.split('_')[0]` as used by `load_memory_state` to recover
the user id from a file name (`split` never returns an empty list, so
index 0 is safe). -/
def parseUser (filename : String) : String :=
  (pySplitChar '_' filename).headD ""

/-- Python `filename.endswith(suffix)`. -/
def pyEndsWith (s suffix : String) : Bool :=
  suffix.data.isSuffixOf s.data

/-- The chunk-list reconstruction of `load_memory_state`:
`MemoryChunk(content=…, timestamp=…, category=…)` per record, each with
a fresh id (modelled by the advancing clock). -/
def buildChunks (clk : Nat) : List SChunk → List MemoryChunk
  | [] => []
  | sc :: rest =>
    MemoryChunk.make clk sc.content sc.timestamp sc.category
      :: buildChunks (clk + 1) rest

/-- One iteration of the `load_memory_state` directory scan: a file name
ending in `_memory_state.json` has its user id recovered by
`filename.split('_')[0]` and that user's chunk list rebuilt from the
serialized `content`/`timestamp`/`category` fields with fresh ids; the
category index is *not* rebuilt. -/
def loadFile (st : Store) (p : String × List SChunk) : Store :=
  if pyEndsWith p.1 "_memory_state.json" then
    { st with userMemories := dictSet st.userMemories (parseUser p.1)
                                (buildChunks st.clock p.2),
              clock := st.clock + p.2.length }
  else st

/-- `UserMemoryManager.load_memory_state`: scan the storage directory
(modelled as a list of file name / parsed-JSON pairs). -/
def loadMemoryState (s : Store) (files : List (String × List SChunk)) : Store :=
  files.foldl loadFile s

/-- The observable identity of a chunk for persistence round-trips:
content, timestamp and category (ids are regenerated on load). -/
def tripleOf (c : MemoryChunk) : String × Nat × String :=
  (c.content, c.timestamp, c.category)

/-! ### Lemmas about word splitting and joining -/

theorem pyJoin_append (g t : List String) (hg : g ≠ []) (ht : t ≠ []) :
    pyJoin " " (g ++ t) = pyJoin " " g ++ " " ++ pyJoin " " t := by
  induction g with
  | nil => exact absurd rfl hg
  | cons x g' ih =>
    cases g' with
    | nil =>
      cases t with
      | nil => exact absurd rfl ht
      | cons y t' => simp [pyJoin]
    | cons x' g'' =>
      have h := ih (by simp)
      have e1 : pyJoin " " ((x :: x' :: g'') ++ t)
          = x ++ " " ++ pyJoin " " ((x' :: g'') ++ t) := rfl
      have e2 : pyJoin " " (x :: x' :: g'')
          = x ++ " " ++ pyJoin " " (x' :: g'') := rfl
      rw [e1, h, e2]
      simp [String.append_assoc]

theorem splitWords_join (maxSize : Nat) :
    ∀ (ws cur : List String) (sz : Nat),
      (splitWords maxSize ws cur sz).flatten = cur ++ ws := by
  intro ws
  induction ws with
  | nil =>
    intro cur sz
    by_cases h : cur = [] <;> simp [splitWords, h]
  | cons w ws ih =>
    intro cur sz
    by_cases h : maxSize < sz + w.length <;> simp [splitWords, h, ih]

theorem splitWords_ne_nil (maxSize : Nat) :
    ∀ (ws cur : List String) (sz : Nat), cur ≠ [] →
      ∀ g ∈ splitWords maxSize ws cur sz, g ≠ [] := by
  intro ws
  induction ws with
  | nil =>
    intro cur sz hc g hg
    simp [splitWords, hc] at hg
    simpa [hg] using hc
  | cons w ws ih =>
    intro cur sz hc g hg
    simp only [splitWords] at hg
    by_cases h : maxSize < sz + w.length
    · simp only [if_pos h, List.mem_cons] at hg
      rcases hg with rfl | hg
      · exact hc
      · exact ih [w] (w.length + 1) (by simp) g hg
    · simp only [if_neg h] at hg
      exact ih (cur ++ [w]) (sz + w.length + 1) (by simp) g hg

theorem pyJoin_map_join :
    ∀ (groups : List (List String)), (∀ g ∈ groups, g ≠ []) →
      pyJoin " " (groups.map (pyJoin " ")) = pyJoin " " groups.flatten := by
  intro groups
  induction groups with
  | nil => simp [pyJoin]
  | cons g gs ih =>
    intro h
    cases gs with
    | nil => simp [pyJoin]
    | cons g' gs' =>
      have hg : g ≠ [] := h g (by simp)
      have hj : (g' :: gs').flatten ≠ [] := by
        have hg' : g' ≠ [] := h g' (by simp)
        simp only [List.flatten_cons, ne_eq, List.append_eq_nil]
        intro hh
        exact hg' hh.1
      have hrec := ih (fun x hx => h x (List.mem_cons_of_mem _ hx))
      calc pyJoin " " ((g :: g' :: gs').map (pyJoin " "))
          = pyJoin " " g ++ " " ++ pyJoin " " ((g' :: gs').map (pyJoin " ")) := by
            simp [pyJoin]
        _ = pyJoin " " g ++ " " ++ pyJoin " " (g' :: gs').flatten := by rw [hrec]
        _ = pyJoin " " (g ++ (g' :: gs').flatten) := (pyJoin_append _ _ hg hj).symm
        _ = pyJoin " " (g :: g' :: gs').flatten := by simp

theorem wordsAux_pos : ∀ (l acc : List Char), ∀ w ∈ wordsAux l acc, 0 < w.length := by
  intro l
  induction l with
  | nil =>
    intro acc w hw
    by_cases h : acc = []
    · simp [wordsAux, h] at hw
    · simp only [wordsAux, if_neg h, List.mem_singleton] at hw
      subst hw
      simpa [String.length, List.length_pos] using h
  | cons c rest ih =>
    intro acc w hw
    simp only [wordsAux] at hw
    by_cases hws : c.isWhitespace
    · simp only [if_pos hws] at hw
      by_cases h : acc = []
      · simp only [if_pos h] at hw
        exact ih [] w hw
      · simp only [if_neg h, List.mem_cons] at hw
        rcases hw with rfl | hw
        · simpa [String.length, List.length_pos] using h
        · exact ih [] w hw
    · simp only [if_neg hws] at hw
      exact ih (c :: acc) w hw

theorem pyJoin_pos (g : List String) (hg : g ≠ []) (h : ∀ w ∈ g, 0 < w.length) :
    0 < (pyJoin " " g).length := by
  cases g with
  | nil => exact absurd rfl hg
  | cons x g' =>
    cases g' with
    | nil => exact h x (by simp)
    | cons y g'' =>
      have hx := h x (by simp)
      calc 0 < x.length := hx
        _ ≤ (pyJoin " " (x :: y :: g'')).length := by
            simp only [pyJoin, String.length_append]
            omega

/-! ### Claims C3, C4 and C10: splitting -/

/-- Claim C3: splitting `"a b c d e"` with `max_chunk_size = 3` produces
exactly the chunks `"a b"`, `"c d"`, `"e"` in this order. -/
theorem c3_split_scenario :
    (splitMemoryContent 0 "a b c d e" 3).map (·.content)
      = ["a b", "c d", "e"] := by decide

/-- Claim C4, counterexample: the input `"aaaa"` has no multi-space runs
(it is the single-space join of its own word list), yet splitting it with
`max_chunk_size = 3` yields the chunks `""` and `"aaaa"`, whose
single-space concatenation is `" aaaa"`, not `"aaaa"`. -/
theorem c4_roundtrip_counterexample :
    pyJoin " " (pyWords "aaaa") = "aaaa"
    ∧ pyJoin " " ((splitMemoryContent 0 "aaaa" 3).map (·.content)) = " aaaa"
    ∧ " aaaa" ≠ "aaaa" := by
  refine ⟨by decide, by decide, by decide⟩

/-- Claim C4, amended: for every input text in which consecutive words
are separated by exactly one space (with no leading or trailing
whitespace), and whose first word is no longer than `max_chunk_size`,
concatenating the contents of all chunks produced by
`split_memory_content` with single spaces reproduces the input text
exactly. -/
theorem c4_roundtrip (text : String) (maxSize ts : Nat)
    (hsp : pyJoin " " (pyWords text) = text)
    (hfst : ∀ w, (pyWords text).head? = some w → w.length ≤ maxSize) :
    pyJoin " " ((splitMemoryContent ts text maxSize).map (·.content)) = text := by
  unfold splitMemoryContent
  rw [List.map_map]
  have hcont : ((fun c : MemoryChunk => c.content) ∘
      (fun g => MemoryChunk.make 0 (pyJoin " " g) ts "default"))
      = pyJoin " " := rfl
  rw [hcont]
  cases hw : pyWords text with
  | nil =>
    rw [hw] at hsp
    simpa [splitWords, pyJoin] using hsp
  | cons w ws =>
    have hlen : w.length ≤ maxSize := hfst w (by rw [hw]; rfl)
    have hcond : ¬ maxSize < 0 + w.length := by omega
    have hstep : splitWords maxSize (w :: ws) [] 0
        = splitWords maxSize ws ([] ++ [w]) (0 + w.length + 1) := by
      simp only [splitWords]
      rw [if_neg hcond]
    rw [hstep]
    have hne := splitWords_ne_nil maxSize ws ([] ++ [w]) (0 + w.length + 1) (by simp)
    rw [pyJoin_map_join _ hne, splitWords_join]
    rw [hw] at hsp
    simpa using hsp

/-- Claim C10: if the first word of the input is longer than
`max_chunk_size`, the first chunk produced by `split_memory_content` has
empty content, while every later chunk is non-empty. -/
theorem c10_first_chunk_empty (text : String) (maxSize ts : Nat) (w : String)
    (ws : List String) (hw : pyWords text = w :: ws)
    (hlong : maxSize < w.length) :
    ((splitMemoryContent ts text maxSize).map (·.content)).head? = some ""
    ∧ ∀ c ∈ ((splitMemoryContent ts text maxSize).map (·.content)).tail,
        c ≠ "" := by
  unfold splitMemoryContent
  rw [List.map_map]
  have hcont : ((fun c : MemoryChunk => c.content) ∘
      (fun g => MemoryChunk.make 0 (pyJoin " " g) ts "default"))
      = pyJoin " " := rfl
  rw [hcont, hw]
  have hcond : maxSize < 0 + w.length := by omega
  have hstep : splitWords maxSize (w :: ws) [] 0
      = [] :: splitWords maxSize ws [w] (w.length + 1) := by
    simp only [splitWords]
    rw [if_pos hcond]
  rw [hstep]
  constructor
  · simp [pyJoin]
  · intro c hc
    simp only [List.map_cons, List.tail_cons, List.mem_map] at hc
    obtain ⟨g, hg, rfl⟩ := hc
    have hgne : g ≠ [] := splitWords_ne_nil maxSize ws [w] (w.length + 1) (by simp) g hg
    have hwpos : ∀ x ∈ g, 0 < x.length := by
      intro x hx
      have hxmem : x ∈ (splitWords maxSize ws [w] (w.length + 1)).flatten :=
        List.mem_flatten_of_mem hg hx
      rw [splitWords_join] at hxmem
      have : x ∈ pyWords text := by
        rw [hw]
        simpa using hxmem
      exact wordsAux_pos _ _ x this
    have hpos := pyJoin_pos g hgne hwpos
    intro hempty
    rw [hempty] at hpos
    simp [String.length] at hpos

/-- Claim C10, witness: for the input `"aaaa b"` with `max_chunk_size = 3`
the produced chunk contents are `""`, `"aaaa"`, `"b"`. -/
theorem c10_first_chunk_empty_witness :
    ((splitMemoryContent 0 "aaaa b" 3).map (·.content)).head? = some ""
    ∧ ∀ c ∈ ((splitMemoryContent 0 "aaaa b" 3).map (·.content)).tail, c ≠ "" := by
  have h := c10_first_chunk_empty "aaaa b" 3 0 "aaaa" ["b"] (by decide) (by decide)
  exact h

/-- Claim C4, witness: the text `"a b"` with `max_chunk_size = 4`
satisfies both hypotheses and round-trips. -/
theorem c4_roundtrip_witness :
    pyJoin " " ((splitMemoryContent 0 "a b" 4).map (·.content)) = "a b" := by
  have h := c4_roundtrip "a b" 4 0 (by decide)
    (fun w hw => by
      have : w = "a" := by
        simpa using congrArg (fun o => o.getD "") hw.symm
      rw [this]; decide)
  exact h

/-! ### Claim C9: chunk size semantics -/

theorem utf8Size_of_ascii (c : Char) (h : c.val ≤ 0x7F) : c.utf8Size = 1 := by
  unfold Char.utf8Size
  simp [h]

theorem utf8ByteSize_go_ascii : ∀ (l : List Char), (∀ c ∈ l, c.val ≤ 0x7F) →
    String.utf8ByteSize.go l = l.length := by
  intro l
  induction l with
  | nil => intro _; rfl
  | cons c cs ih =>
    intro h
    have hc := h c (by simp)
    show String.utf8ByteSize.go cs + c.utf8Size = cs.length + 1
    rw [ih (fun d hd => h d (List.mem_cons_of_mem _ hd)), utf8Size_of_ascii c hc]

/-- Claim C9, counterexample: the chunk built from the one-character
content `"é"` has `size = 1` (Python `len`, counting code points), but
the UTF-8 encoding of `"é"` is 2 bytes long. -/
theorem c9_size_counterexample :
    (MemoryChunk.make 0 "é" 0 "default").size = 1
    ∧ ("é" : String).utf8ByteSize = 2
    ∧ (1 : Nat) ≠ 2 := by
  refine ⟨by decide, by decide, by decide⟩

/-- Claim C9, amended: at creation `size` equals the number of Unicode
code points of `content` (Python `len`), which coincides with the UTF-8
byte length exactly when the content is ASCII — for non-ASCII content
the two differ. -/
theorem c9_size_is_length (id : Nat) (content : String) (ts : Nat) (cat : String) :
    (MemoryChunk.make id content ts cat).size = content.length
    ∧ ((∀ c ∈ content.data, c.val ≤ 0x7F) →
        (MemoryChunk.make id content ts cat).size = content.utf8ByteSize) := by
  constructor
  · rfl
  · intro h
    show content.length = content.utf8ByteSize
    cases content with
    | mk l =>
      show l.length = String.utf8ByteSize.go l
      rw [utf8ByteSize_go_ascii l h]

/-- Claim C9, witness: for the ASCII content `"abc"` the size is the
byte length 3. -/
theorem c9_size_is_length_witness :
    (MemoryChunk.make 0 "abc" 0 "default").size = ("abc" : String).utf8ByteSize :=
  (c9_size_is_length 0 "abc" 0 "default").2 (by decide)

/-! ### Dictionary lemmas -/

theorem dictGet_dictSet_self {α : Type} (d : List (String × α)) (k : String) (v : α) :
    dictGet (dictSet d k v) k = some v := by
  induction d with
  | nil => simp [dictGet, dictSet]
  | cons p rest ih =>
    by_cases h : p.1 = k
    · simp [dictGet, dictSet, h]
    · simp [dictGet, dictSet, h, ih]

theorem dictGet_dictSet_other {α : Type} (d : List (String × α)) (k k' : String)
    (v : α) (h : k ≠ k') : dictGet (dictSet d k v) k' = dictGet d k' := by
  have hk : ¬ k' = k := fun hh => h hh.symm
  induction d with
  | nil => simp [dictGet, dictSet, h, hk]
  | cons p rest ih =>
    by_cases hp : p.1 = k
    · simp [dictGet, dictSet, hp, h, hk]
    · by_cases hp' : p.1 = k' <;> simp [dictGet, dictSet, hp, hp', h, hk, ih]

/-! ### Claim C5: empty content is accepted -/

theorem evictLoop_zero_req (freed : Nat) :
    ∀ l : List MemoryChunk, evictLoop 0 freed l = [] := by
  intro l
  cases l with
  | nil => rfl
  | cons c rest => simp [evictLoop]

theorem prune_zero_req (s : Store) (uid : String) :
    pruneMemoryChunks s uid 0 = .ok s := by
  unfold pruneMemoryChunks
  cases hm : dictGet s.userMemories uid with
  | none => rfl
  | some chunks => simp [evictLoop_zero_req]

/-- Claim C5, counterexample: calling `add_memory_chunk` with empty
content on a fresh store raises nothing and stores a chunk of size 0 —
there is no `InvalidContentError` anywhere in the code. -/
theorem c5_empty_content_counterexample :
    (addMemoryChunk (emptyStore 100) "u" "" "default" []).toOption.map
      (fun p => ((dictGet p.1.userMemories "u").getD []).map (·.size))
    = some [0] := by decide

/-- `add_memory_chunk` with default (empty) metadata, written without
the intermediate `let` bindings. -/
theorem addMemoryChunk_eq (s : Store) (uid content cat : String) :
    addMemoryChunk s uid content cat []
    = match (if s.maxBytes < sumSizes ((dictGet s.userMemories uid).getD [])
                + (MemoryChunk.make s.clock content s.clock cat).size
             then pruneMemoryChunks s uid (MemoryChunk.make s.clock content s.clock cat).size
             else .ok s) with
      | .error e => .error e
      | .ok s1 => .ok (addCommit s1 uid cat (MemoryChunk.make s.clock content s.clock cat),
                       (MemoryChunk.make s.clock content s.clock cat).id) := rfl

/-- Claim C5, amended: for every store and user, adding a chunk with
empty content succeeds synchronously (no exception), returns the fresh
chunk id, and appends a size-0 chunk to the user's collection. -/
theorem c5_empty_content_accepted (s : Store) (uid cat : String) :
    ∃ s', addMemoryChunk s uid "" cat [] = .ok (s', s.clock)
      ∧ (dictGet s'.userMemories uid).getD []
          = (dictGet s.userMemories uid).getD []
            ++ [MemoryChunk.make s.clock "" s.clock cat] := by
  have hsz : (MemoryChunk.make s.clock "" s.clock cat).size = 0 := rfl
  have hpr : (if s.maxBytes < sumSizes ((dictGet s.userMemories uid).getD [])
                + (MemoryChunk.make s.clock "" s.clock cat).size
              then pruneMemoryChunks s uid (MemoryChunk.make s.clock "" s.clock cat).size
              else .ok s) = .ok s := by
    rw [hsz]
    by_cases h : s.maxBytes < sumSizes ((dictGet s.userMemories uid).getD []) + 0
    · rw [if_pos h, prune_zero_req]
    · rw [if_neg h]
  refine ⟨addCommit s uid cat (MemoryChunk.make s.clock "" s.clock cat), ?_, ?_⟩
  · rw [addMemoryChunk_eq, hpr]
    rfl
  · simp [addCommit, dictGet_dictSet_self]

/-! ### Claim C6: eviction can raise -/

/-- Claim C6 is false on the code: `load_memory_state` fills
`user_memories` but never rebuilds `memory_index`, and
`prune_memory_chunks` then hits `self.memory_index[user_id]` — a
`KeyError` — as soon as it has at least one chunk to remove.  Here the
store obtained by loading one user file with a single 10-byte chunk
makes `prune_memory_chunks(user, 5)` raise. -/
theorem c6_prune_raises_keyerror :
    pruneMemoryChunks
      (loadMemoryState (emptyStore 100)
        [("u_memory_state.json", [⟨7, "0123456789", 0, "default", []⟩])])
      "u" 5
    = Except.error PyError.keyError := by rfl

/-! ### Claim C8: retrieval is not read-only -/

theorem insertByTsDesc_perm (c : MemoryChunk) (l : List MemoryChunk) :
    (insertByTsDesc c l).Perm (c :: l) := by
  induction l with
  | nil => exact List.Perm.refl _
  | cons d rest ih =>
    by_cases h : c.timestamp < d.timestamp
    · simp only [insertByTsDesc, if_pos h]
      exact (ih.cons d).trans (List.Perm.swap c d rest)
    · simp only [insertByTsDesc, if_neg h]
      exact List.Perm.refl _

theorem sortByTsDesc_perm (l : List MemoryChunk) : (sortByTsDesc l).Perm l := by
  induction l with
  | nil => exact List.Perm.refl _
  | cons c rest ih =>
    exact (insertByTsDesc_perm c (sortByTsDesc rest)).trans (ih.cons c)

/-- The two-chunk store used to exhibit the C8 mutation: user `"u"` holds
chunks with timestamps 0 and 1 in insertion (ascending) order. -/
def c8CexStore : Store :=
  { maxBytes := 100,
    userMemories := [("u", [MemoryChunk.make 0 "a" 0 "default",
                            MemoryChunk.make 1 "b" 1 "default"])],
    memoryIndex := [], clock := 2 }

/-- Claim C8, counterexample: with `category = None` and
`min_timestamp = None`, `retrieve_memory_chunks` sorts the user's stored
list *in place* (Python aliasing), reversing the stored order from
timestamps `[0, 1]` to `[1, 0]`. -/
theorem c8_retrieve_mutates_counterexample :
    ((retrieveMemoryChunks c8CexStore "u" none 10 none).2.userMemories.map
        (fun p => (p.1, p.2.map (·.timestamp)))) = [("u", [1, 0])]
    ∧ c8CexStore.userMemories.map (fun p => (p.1, p.2.map (·.timestamp)))
        = [("u", [0, 1])]
    ∧ ([("u", [(1 : Nat), 0])] : List (String × List Nat)) ≠ [("u", [0, 1])] := by
  refine ⟨by decide, by decide, by decide⟩

/-- Claim C8, amended: `retrieve_memory_chunks` never changes the
multiset of the user's stored chunks, never touches other users, the
index, the clock or the budget, and leaves the store completely
unchanged whenever a truthy `category` or `min_timestamp` filter is
supplied; but when both filters are falsy it re-sorts the user's stored
list in place to timestamp-descending order. -/
theorem retrieve_store_truthy (s : Store) (uid : String) (category : Option String)
    (maxChunks : Nat) (minTs : Option Nat)
    (hb : (truthyStr category || truthyNat minTs) = true) :
    (retrieveMemoryChunks s uid category maxChunks minTs).2 = s := by
  unfold retrieveMemoryChunks
  cases hm : dictGet s.userMemories uid with
  | none => rfl
  | some chunks => simp [hb]

theorem retrieve_store_falsy (s : Store) (uid : String) (category : Option String)
    (maxChunks : Nat) (minTs : Option Nat)
    (hcat : truthyStr category = false) (hts : truthyNat minTs = false) :
    (retrieveMemoryChunks s uid category maxChunks minTs).2
    = match dictGet s.userMemories uid with
      | none => s
      | some chunks =>
        { s with userMemories := dictSet s.userMemories uid (sortByTsDesc chunks) } := by
  unfold retrieveMemoryChunks
  cases hm : dictGet s.userMemories uid with
  | none => rfl
  | some chunks => simp [hcat, hts]

theorem c8_retrieve_effects (s : Store) (uid : String) (category : Option String)
    (maxChunks : Nat) (minTs : Option Nat) :
    ((retrieveMemoryChunks s uid category maxChunks minTs).2.maxBytes = s.maxBytes
      ∧ (retrieveMemoryChunks s uid category maxChunks minTs).2.memoryIndex
          = s.memoryIndex
      ∧ (retrieveMemoryChunks s uid category maxChunks minTs).2.clock = s.clock)
    ∧ (∀ u, u ≠ uid →
        dictGet (retrieveMemoryChunks s uid category maxChunks minTs).2.userMemories u
          = dictGet s.userMemories u)
    ∧ ((dictGet (retrieveMemoryChunks s uid category maxChunks minTs).2.userMemories
          uid).getD []).Perm ((dictGet s.userMemories uid).getD [])
    ∧ ((truthyStr category || truthyNat minTs) = true →
        (retrieveMemoryChunks s uid category maxChunks minTs).2 = s) := by
  by_cases hb : (truthyStr category || truthyNat minTs) = true
  · rw [retrieve_store_truthy s uid category maxChunks minTs hb]
    exact ⟨⟨rfl, rfl, rfl⟩, fun u _ => rfl, List.Perm.refl _, fun _ => rfl⟩
  · have hcat : truthyStr category = false :=
      (Bool.or_eq_false_iff.mp (Bool.eq_false_iff.mpr hb)).1
    have hts : truthyNat minTs = false :=
      (Bool.or_eq_false_iff.mp (Bool.eq_false_iff.mpr hb)).2
    rw [retrieve_store_falsy s uid category maxChunks minTs hcat hts]
    cases hm : dictGet s.userMemories uid with
    | none =>
      refine ⟨⟨rfl, rfl, rfl⟩, fun u _ => rfl, ?_, fun hcontra => absurd hcontra hb⟩
      show ((dictGet s.userMemories uid).getD []).Perm
        ((none : Option (List MemoryChunk)).getD [])
      rw [hm]
    | some chunks =>
      refine ⟨⟨rfl, rfl, rfl⟩, ?_, ?_, fun hcontra => absurd hcontra hb⟩
      · intro u hu
        exact dictGet_dictSet_other _ _ _ _ (fun hh => hu hh.symm)
      · show ((dictGet (dictSet s.userMemories uid (sortByTsDesc chunks)) uid).getD
            []).Perm chunks
        rw [dictGet_dictSet_self]
        exact sortByTsDesc_perm chunks

/-- Claim C8, witness: with a truthy category filter the store is
returned unchanged. -/
theorem c8_retrieve_effects_witness :
    (retrieveMemoryChunks c8CexStore "u" (some "x") 10 none).2 = c8CexStore :=
  (c8_retrieve_effects c8CexStore "u" (some "x") 10 none).2.2.2 (by decide)

/-! ### Claim C7: persistence round-trip -/

theorem dictGet_eq_none {α : Type} (d : List (String × α)) (k : String)
    (h : k ∉ d.map Prod.fst) : dictGet d k = none := by
  induction d with
  | nil => rfl
  | cons p rest ih =>
    have hp : ¬ p.1 = k := by
      intro hh
      exact h (by simp [hh])
    simp only [dictGet, if_neg hp]
    exact ih (fun hh => h (by simp [hh]))

theorem splitCharAux_sep (l2 : List Char) :
    ∀ (l1 acc : List Char), '_' ∉ l1 →
      splitCharAux '_' (l1 ++ '_' :: l2) acc
      = String.mk (acc.reverse ++ l1) :: splitCharAux '_' l2 [] := by
  intro l1
  induction l1 with
  | nil =>
    intro acc _
    simp [splitCharAux]
  | cons c l1 ih =>
    intro acc hc
    have hcne : ¬ c = '_' := fun hh => hc (by simp [hh])
    have e : splitCharAux '_' ((c :: l1) ++ '_' :: l2) acc
        = splitCharAux '_' (l1 ++ '_' :: l2) (c :: acc) := by
      simp only [List.cons_append, splitCharAux, if_neg hcne]
      rfl
    rw [e, ih (c :: acc) (fun hh => hc (List.mem_cons_of_mem _ hh))]
    simp

theorem parseUser_save (uid : String) (h : '_' ∉ uid.data) :
    parseUser (uid ++ "_memory_state.json") = uid := by
  unfold parseUser pySplitChar
  have hd : (uid ++ "_memory_state.json").data
      = uid.data ++ '_' :: ("memory_state.json" : String).data := by
    rw [String.data_append]
  rw [hd, splitCharAux_sep _ _ _ h]
  simp

theorem pyEndsWith_append (a b : String) : pyEndsWith (a ++ b) b = true := by
  unfold pyEndsWith
  rw [String.data_append]
  simp

theorem buildChunks_triples :
    ∀ (scs : List SChunk) (clk : Nat),
      (buildChunks clk scs).map tripleOf
      = scs.map (fun sc => (sc.content, sc.timestamp, sc.category)) := by
  intro scs
  induction scs with
  | nil => intro clk; rfl
  | cons sc rest ih =>
    intro clk
    simp only [buildChunks, List.map_cons, ih]
    rfl

theorem serChunks_triples (cs : List MemoryChunk) :
    (serChunks cs).map (fun sc => (sc.content, sc.timestamp, sc.category))
    = cs.map tripleOf := by
  unfold serChunks
  rw [List.map_map]
  rfl

theorem load_save_lookup :
    ∀ (entries : List (String × List MemoryChunk)) (st : Store) (uid : String),
      (entries.map Prod.fst).Nodup →
      (∀ u ∈ entries.map Prod.fst, '_' ∉ u.data) →
      ((dictGet (loadMemoryState st (saveEntries entries)).userMemories uid).getD
          []).map tripleOf
      = ((dictGet entries uid).map (fun cs => cs.map tripleOf)).getD
          (((dictGet st.userMemories uid).getD []).map tripleOf) := by
  intro entries
  induction entries with
  | nil =>
    intro st uid _ _
    rfl
  | cons e rest ih =>
    intro st uid hnd hus
    obtain ⟨u0, cs0⟩ := e
    have hu0 : '_' ∉ u0.data := hus u0 (by simp)
    have hload : loadFile st (u0 ++ "_memory_state.json", serChunks cs0)
        = { st with
              userMemories := dictSet st.userMemories u0
                (buildChunks st.clock (serChunks cs0)),
              clock := st.clock + (serChunks cs0).length } := by
      unfold loadFile
      rw [if_pos (pyEndsWith_append u0 "_memory_state.json"),
          parseUser_save u0 hu0]
    have hstep : loadMemoryState st (saveEntries ((u0, cs0) :: rest))
        = loadMemoryState (loadFile st (u0 ++ "_memory_state.json", serChunks cs0))
            (saveEntries rest) := rfl
    have hnd' : (rest.map Prod.fst).Nodup := (List.nodup_cons.mp hnd).2
    have hnotin : u0 ∉ rest.map Prod.fst := (List.nodup_cons.mp hnd).1
    have hus' : ∀ u ∈ rest.map Prod.fst, '_' ∉ u.data :=
      fun u hu => hus u (by simp [hu])
    rw [hstep, hload, ih _ uid hnd' hus']
    by_cases hu : u0 = uid
    · subst hu
      rw [dictGet_eq_none rest u0 hnotin]
      have hget : dictGet ((u0, cs0) :: rest) u0 = some cs0 := by
        simp [dictGet]
      rw [hget]
      have hself : dictGet
          (dictSet st.userMemories u0 (buildChunks st.clock (serChunks cs0))) u0
          = some (buildChunks st.clock (serChunks cs0)) :=
        dictGet_dictSet_self _ _ _
      simp only [Option.map_none, Option.getD_none, Option.map_some,
        Option.getD_some, hself]
      rw [buildChunks_triples, serChunks_triples]
      rfl
    · have hget : dictGet ((u0, cs0) :: rest) uid = dictGet rest uid := by
        simp [dictGet, hu]
      rw [hget]
      have hother : dictGet
          (dictSet st.userMemories u0 (buildChunks st.clock (serChunks cs0))) uid
          = dictGet st.userMemories uid :=
        dictGet_dictSet_other _ _ _ _ hu
      rw [hother]

/-- The store used to exhibit the C7 round-trip failure: the user id
`"a_b"` contains an underscore. -/
def c7CexStore : Store :=
  { maxBytes := 100,
    userMemories := [("a_b", [MemoryChunk.make 0 "hello" 0 "default"])],
    memoryIndex := [("a_b", [("default", [0])])], clock := 1 }

/-- Claim C7, counterexample: saving user `"a_b"` writes
`a_b_memory_state.json`, but loading parses the user id as
`split('_')[0] = "a"`, so on a fresh store user `"a_b"` comes back
empty instead of with its chunk `("hello", 0, "default")`. -/
theorem c7_roundtrip_counterexample :
    ((dictGet (loadMemoryState (emptyStore 100)
        (saveMemoryState c7CexStore)).userMemories "a_b").getD []).map tripleOf = []
    ∧ ((dictGet c7CexStore.userMemories "a_b").getD []).map tripleOf
        = [("hello", 0, "default")]
    ∧ ([] : List (String × Nat × String)) ≠ [("hello", 0, "default")] := by
  refine ⟨by decide, by decide, by decide⟩

/-- Claim C7, amended: provided every user id in the store is free of
underscores (the save format delimits the id with `'_'` and load splits
on it), saving and then loading on a fresh store reproduces, for every
user, the exact sequence of chunk `(content, timestamp, category)`
triples; chunk ids are regenerated and metadata is dropped by load. -/
theorem c7_save_load_roundtrip (s : Store) (uid : String)
    (hnd : (s.userMemories.map Prod.fst).Nodup)
    (hus : ∀ u ∈ s.userMemories.map Prod.fst, '_' ∉ u.data) :
    ((dictGet (loadMemoryState (emptyStore s.maxBytes)
        (saveMemoryState s)).userMemories uid).getD []).map tripleOf
    = ((dictGet s.userMemories uid).getD []).map tripleOf := by
  have h := load_save_lookup s.userMemories (emptyStore s.maxBytes) uid hnd hus
  rw [saveMemoryState] at *
  rw [h]
  cases hm : dictGet s.userMemories uid with
  | none => rfl
  | some cs => rfl

/-- The store used to witness the C7 round-trip on an underscore-free
user id. -/
def c7WitnessStore : Store :=
  { maxBytes := 100,
    userMemories := [("u", [MemoryChunk.make 0 "hello" 0 "default",
                            MemoryChunk.make 1 "bye" 1 "chat"])],
    memoryIndex := [("u", [("default", [0]), ("chat", [1])])], clock := 2 }

/-- Claim C7, witness: the round-trip reproduces the triples of user
`"u"` of a concrete two-chunk store. -/
theorem c7_save_load_roundtrip_witness :
    ((dictGet (loadMemoryState (emptyStore c7WitnessStore.maxBytes)
        (saveMemoryState c7WitnessStore)).userMemories "u").getD []).map tripleOf
    = ((dictGet c7WitnessStore.userMemories "u").getD []).map tripleOf :=
  c7_save_load_roundtrip c7WitnessStore "u" (by decide) (by decide)

/-! ### Eviction-loop lemmas (claims C1 and C2) -/

theorem sumSizes_append (a b : List MemoryChunk) :
    sumSizes (a ++ b) = sumSizes a + sumSizes b := by
  induction a with
  | nil => simp [sumSizes]
  | cons c rest ih =>
    show c.size + sumSizes (rest ++ b) = c.size + sumSizes rest + sumSizes b
    rw [ih]
    omega

theorem sumSizes_take_drop (l : List MemoryChunk) (k : Nat) :
    sumSizes (l.take k) + sumSizes (l.drop k) = sumSizes l := by
  rw [← sumSizes_append, List.take_append_drop]

theorem evictLoop_eq_take (req : Nat) :
    ∀ (l : List MemoryChunk) (freed : Nat),
      evictLoop req freed l = l.take (evictLoop req freed l).length := by
  intro l
  induction l with
  | nil => intro freed; rfl
  | cons c rest ih =>
    intro freed
    by_cases h : req ≤ freed
    · simp [evictLoop, h]
    · simp only [evictLoop, if_neg h, List.length_cons, List.take_succ_cons]
      rw [← ih (freed + c.size)]

theorem evictLoop_stop (req : Nat) :
    ∀ (l : List MemoryChunk) (freed : Nat),
      req ≤ freed + sumSizes (evictLoop req freed l)
      ∨ evictLoop req freed l = l := by
  intro l
  induction l with
  | nil => intro freed; right; rfl
  | cons c rest ih =>
    intro freed
    by_cases h : req ≤ freed
    · left
      simp only [evictLoop, if_pos h, sumSizes]
      omega
    · rcases ih (freed + c.size) with hl | hr
      · left
        simp only [evictLoop, if_neg h, sumSizes]
        omega
      · right
        simp [evictLoop, if_neg h, hr]

theorem evictLoop_minimal (req : Nat) :
    ∀ (l : List MemoryChunk) (freed k : Nat),
      k < (evictLoop req freed l).length →
      freed + sumSizes (l.take k) < req := by
  intro l
  induction l with
  | nil => intro freed k hk; simp [evictLoop] at hk
  | cons c rest ih =>
    intro freed k hk
    by_cases h : req ≤ freed
    · simp [evictLoop, h] at hk
    · simp only [evictLoop, if_neg h, List.length_cons] at hk
      cases k with
      | zero =>
        simp only [List.take_zero, sumSizes]
        omega
      | succ k' =>
        have hrec := ih (freed + c.size) k' (Nat.lt_of_succ_lt_succ hk)
        simp only [List.take_succ_cons, sumSizes]
        omega

theorem evictLoop_ne_nil (req : Nat) (c : MemoryChunk) (rest : List MemoryChunk)
    (hreq : 0 < req) : evictLoop req 0 (c :: rest) ≠ [] := by
  have h : ¬ req ≤ 0 := by omega
  simp [evictLoop, h]

theorem foldl_removeFirstById_take :
    ∀ (l : List MemoryChunk) (k : Nat),
      List.foldl removeFirstById l (l.take k) = l.drop k := by
  intro l
  induction l with
  | nil => intro k; simp
  | cons c rest ih =>
    intro k
    cases k with
    | zero => rfl
    | succ k' =>
      simp only [List.take_succ_cons, List.foldl_cons, List.drop_succ_cons]
      have hrm : removeFirstById (c :: rest) c = rest := by simp [removeFirstById]
      rw [hrm]
      exact ih k'

theorem sortByTs_of_sorted :
    ∀ (l : List MemoryChunk),
      l.Pairwise (fun a b => a.timestamp < b.timestamp) → sortByTs l = l := by
  intro l
  induction l with
  | nil => intro _; rfl
  | cons c rest ih =>
    intro h
    have hr := (List.pairwise_cons.mp h).2
    simp only [sortByTs, ih hr]
    cases rest with
    | nil => rfl
    | cons d rest2 =>
      have hcd : c.timestamp < d.timestamp := (List.pairwise_cons.mp h).1 d (by simp)
      have hnd : ¬ d.timestamp < c.timestamp := by omega
      simp [insertByTs, hnd]

/-- What a successful `prune_memory_chunks` call does to the store, for
a user whose chunk list is already in ascending timestamp order: the
oldest `k` chunks disappear for a `k` that either frees at least `req`
bytes or exhausts the list; nothing else changes. -/
theorem prune_ok_drop (s : Store) (uid : String) (req : Nat) (s1 : Store)
    (hreq : 0 < req)
    (hsort : sortByTs ((dictGet s.userMemories uid).getD [])
      = (dictGet s.userMemories uid).getD [])
    (h : pruneMemoryChunks s uid req = .ok s1) :
    s1.maxBytes = s.maxBytes ∧ s1.clock = s.clock
    ∧ (∀ u, u ≠ uid → dictGet s1.userMemories u = dictGet s.userMemories u)
    ∧ ∃ k, (dictGet s1.userMemories uid).getD []
            = ((dictGet s.userMemories uid).getD []).drop k
        ∧ (req ≤ sumSizes (((dictGet s.userMemories uid).getD []).take k)
           ∨ k = ((dictGet s.userMemories uid).getD []).length) := by
  unfold pruneMemoryChunks at h
  cases hm : dictGet s.userMemories uid with
  | none =>
    rw [hm] at h
    have hs : s1 = s := by
      injection h with h1
      exact h1.symm
    subst hs
    refine ⟨rfl, rfl, fun u _ => rfl, 0, ?_, ?_⟩
    · simp [hm]
    · simp [hm]
  | some chunks =>
    rw [hm] at h hsort
    simp only [Option.getD_some] at hsort ⊢
    replace h : (if evictLoop req 0 (sortByTs chunks) = [] then Except.ok s
        else match dictGet s.memoryIndex uid with
          | none => Except.error PyError.keyError
          | some idxU =>
            Except.ok { s with
              userMemories := dictSet s.userMemories uid
                (List.foldl removeFirstById chunks
                  (evictLoop req 0 (sortByTs chunks))),
              memoryIndex := dictSet s.memoryIndex uid
                (List.foldl
                  (fun idx c => List.map (fun p => (p.1, removeFirstNat p.2 c.id)) idx)
                  idxU (evictLoop req 0 (sortByTs chunks))) }) = Except.ok s1 := h
    rw [hsort] at h
    by_cases hp : evictLoop req 0 chunks = []
    · rw [if_pos hp] at h
      have hs : s1 = s := by
        injection h with h1
        exact h1.symm
      subst hs
      have hnil : chunks = [] := by
        cases hch : chunks with
        | nil => rfl
        | cons c rest =>
          rw [hch] at hp
          exact absurd hp (evictLoop_ne_nil req c rest hreq)
      refine ⟨rfl, rfl, fun u _ => rfl, 0, ?_, ?_⟩
      · rw [hm]
        simp
      · right
        rw [hnil]
        rfl
    · rw [if_neg hp] at h
      cases hidx : dictGet s.memoryIndex uid with
      | none =>
        rw [hidx] at h
        exact Except.noConfusion h
      | some idxU =>
        rw [hidx] at h
        have hs : s1 = { s with
            userMemories := dictSet s.userMemories uid
              ((evictLoop req 0 chunks).foldl removeFirstById chunks),
            memoryIndex := dictSet s.memoryIndex uid
              ((evictLoop req 0 chunks).foldl
                (fun idx c => idx.map (fun p => (p.1, removeFirstNat p.2 c.id)))
                idxU) } := by
          injection h with h1
          exact h1.symm
        subst hs
        refine ⟨rfl, rfl, ?_, (evictLoop req 0 chunks).length, ?_, ?_⟩
        · intro u hu
          exact dictGet_dictSet_other _ _ _ _ (fun hh => hu hh.symm)
        · show (dictGet (dictSet s.userMemories uid
              ((evictLoop req 0 chunks).foldl removeFirstById chunks)) uid).getD []
            = chunks.drop (evictLoop req 0 chunks).length
          rw [dictGet_dictSet_self]
          show List.foldl removeFirstById chunks (evictLoop req 0 chunks)
            = chunks.drop (evictLoop req 0 chunks).length
          rw [evictLoop_eq_take req chunks 0]
          rw [foldl_removeFirstById_take chunks]
          rw [← evictLoop_eq_take req chunks 0]
        · rcases evictLoop_stop req chunks 0 with hst | hst
          · left
            rw [evictLoop_eq_take req chunks 0] at hst
            simpa using hst
          · right
            rw [hst]

/-! ### Claim C1: the budget invariant -/

theorem length_pos_of_ne_empty (s : String) (h : s ≠ "") : 0 < s.length := by
  cases s with
  | mk d =>
    cases d with
    | nil => exact absurd (by rfl) h
    | cons c cs =>
      show 0 < (c :: cs).length
      simp

/-- The per-user invariant maintained by add-only runs from an empty
store: the total is within budget unless the list is a single oversized
chunk; the list is strictly ascending in timestamp; and every timestamp
is below the store clock. -/
def goodList (maxB clk : Nat) (l : List MemoryChunk) : Prop :=
  (sumSizes l ≤ maxB ∨ ∃ c, l = [c] ∧ maxB < c.size)
  ∧ l.Pairwise (fun a b => a.timestamp < b.timestamp)
  ∧ ∀ c ∈ l, c.timestamp < clk

/-- The store-level invariant for claim C1. -/
def StoreInv (maxB : Nat) (s : Store) : Prop :=
  s.maxBytes = maxB
  ∧ ∀ u, goodList maxB s.clock ((dictGet s.userMemories u).getD [])

theorem goodList_clock_mono (maxB clk clk2 : Nat) (l : List MemoryChunk)
    (h : goodList maxB clk l) (hle : clk ≤ clk2) : goodList maxB clk2 l :=
  ⟨h.1, h.2.1, fun c hc => Nat.lt_of_lt_of_le (h.2.2 c hc) hle⟩

theorem goodList_append (maxB clk : Nat) (l : List MemoryChunk) (c : MemoryChunk)
    (hts : c.timestamp = clk)
    (hpw : l.Pairwise (fun a b => a.timestamp < b.timestamp))
    (hbound : ∀ d ∈ l, d.timestamp < clk)
    (hbud : sumSizes l + c.size ≤ maxB ∨ l = []) :
    goodList maxB (clk + 1) (l ++ [c]) := by
  refine ⟨?_, ?_, ?_⟩
  · rcases hbud with hb | hb
    · left
      rw [sumSizes_append]
      simp only [sumSizes]
      omega
    · subst hb
      by_cases hcs : c.size ≤ maxB
      · left
        simp only [List.nil_append, sumSizes]
        omega
      · right
        exact ⟨c, rfl, by omega⟩
  · rw [List.pairwise_append]
    refine ⟨hpw, List.pairwise_singleton _ _, ?_⟩
    intro a ha b hb
    simp only [List.mem_singleton] at hb
    subst hb
    rw [hts]
    exact hbound a ha
  · intro d hd
    rcases List.mem_append.mp hd with hl | hr
    · exact Nat.lt_succ_of_lt (hbound d hl)
    · simp only [List.mem_singleton] at hr
      subst hr
      rw [hts]
      exact Nat.lt_succ_self clk

theorem addChunk_inv (maxB : Nat) (s : Store) (op : AddOp) (s2 : Store) (cid : Nat)
    (hinv : StoreInv maxB s) (hc : op.content ≠ "")
    (hadd : addMemoryChunk s op.uid op.content op.category [] = .ok (s2, cid)) :
    StoreInv maxB s2 := by
  obtain ⟨hmax, hgood⟩ := hinv
  have hpos : 0 < (MemoryChunk.make s.clock op.content s.clock op.category).size :=
    length_pos_of_ne_empty op.content hc
  rw [addMemoryChunk_eq] at hadd
  by_cases hcond : s.maxBytes < sumSizes ((dictGet s.userMemories op.uid).getD [])
      + (MemoryChunk.make s.clock op.content s.clock op.category).size
  · rw [if_pos hcond] at hadd
    cases hpr : pruneMemoryChunks s op.uid
        (MemoryChunk.make s.clock op.content s.clock op.category).size with
    | error e =>
      rw [hpr] at hadd
      exact Except.noConfusion hadd
    | ok s1 =>
      rw [hpr] at hadd
      have hs2 : s2 = addCommit s1 op.uid op.category
          (MemoryChunk.make s.clock op.content s.clock op.category) := by
        injection hadd with h1
        injection h1 with ha hb
        exact ha.symm
      subst hs2
      have hsort : sortByTs ((dictGet s.userMemories op.uid).getD [])
          = (dictGet s.userMemories op.uid).getD [] :=
        sortByTs_of_sorted _ (hgood op.uid).2.1
      obtain ⟨hmb, hck, hoth, k, hdrop, hstop⟩ :=
        prune_ok_drop s op.uid _ s1 hpos hsort hpr
      constructor
      · show s1.maxBytes = maxB
        rw [hmb, hmax]
      · intro u
        show goodList maxB (s1.clock + 1)
          ((dictGet (dictSet s1.userMemories op.uid
            (((dictGet s1.userMemories op.uid).getD [])
              ++ [MemoryChunk.make s.clock op.content s.clock op.category])) u).getD [])
        by_cases hu : u = op.uid
        · subst hu
          rw [dictGet_dictSet_self]
          simp only [Option.getD_some]
          rw [hck, hdrop]
          set l := (dictGet s.userMemories op.uid).getD [] with hl
          set ch := MemoryChunk.make s.clock op.content s.clock op.category with hch
          have hpw : (l.drop k).Pairwise (fun a b => a.timestamp < b.timestamp) :=
            List.Pairwise.sublist (List.drop_sublist k l) (hgood op.uid).2.1
          have hbound : ∀ d ∈ l.drop k, d.timestamp < s.clock :=
            fun d hd => (hgood op.uid).2.2 d (List.drop_subset k l hd)
          refine goodList_append maxB s.clock (l.drop k) ch rfl hpw hbound ?_
          rcases hstop with hst | hst
          · rcases (hgood op.uid).1 with hA | ⟨c0, hc0, hc0sz⟩
            · left
              rw [← hl] at hA
              have hsum := sumSizes_take_drop l k
              have hle : ch.size ≤ sumSizes (l.take k) := hst
              omega
            · -- the stored list is a single oversized chunk; since
              -- `ch.size ≥ 1`, the take that frees at least `ch.size`
              -- bytes must contain that chunk, so the remainder is empty
              right
              rw [← hl] at hc0
              rw [hc0]
              cases k with
              | zero =>
                simp only [List.take_zero, sumSizes] at hst
                exact absurd hpos (by omega)
              | succ k2 => simp
          · right
            rw [hst]
            exact List.drop_length l
        · rw [dictGet_dictSet_other _ _ _ _ (fun hh => hu hh.symm)]
          rw [hoth u hu]
          refine goodList_clock_mono maxB s.clock (s1.clock + 1) _ (hgood u) ?_
          rw [hck]
          exact Nat.le_succ s.clock
  · rw [if_neg hcond] at hadd
    have hs2 : s2 = addCommit s op.uid op.category
        (MemoryChunk.make s.clock op.content s.clock op.category) := by
      injection hadd with h1
      injection h1 with ha hb
      exact ha.symm
    subst hs2
    constructor
    · exact hmax
    · intro u
      show goodList maxB (s.clock + 1)
        ((dictGet (dictSet s.userMemories op.uid
          (((dictGet s.userMemories op.uid).getD [])
            ++ [MemoryChunk.make s.clock op.content s.clock op.category])) u).getD [])
      by_cases hu : u = op.uid
      · subst hu
        rw [dictGet_dictSet_self]
        simp only [Option.getD_some]
        refine goodList_append maxB s.clock _ _ rfl (hgood op.uid).2.1
          (hgood op.uid).2.2 ?_
        left
        rw [← hmax]
        omega
      · rw [dictGet_dictSet_other _ _ _ _ (fun hh => hu hh.symm)]
        exact goodList_clock_mono maxB s.clock (s.clock + 1) _ (hgood u)
          (Nat.le_succ s.clock)

theorem applyAdds_inv (maxB : Nat) :
    ∀ (ops : List AddOp) (s s2 : Store), StoreInv maxB s →
      (∀ op ∈ ops, op.content ≠ "") →
      applyAdds s ops = .ok s2 → StoreInv maxB s2 := by
  intro ops
  induction ops with
  | nil =>
    intro s s2 hinv _ happ
    have : s = s2 := by
      injection happ
    rw [← this]
    exact hinv
  | cons op ops ih =>
    intro s s2 hinv hne happ
    unfold applyAdds at happ
    cases hadd : addMemoryChunk s op.uid op.content op.category [] with
    | error e =>
      rw [hadd] at happ
      exact Except.noConfusion happ
    | ok r =>
      rw [hadd] at happ
      exact ih r.1 s2
        (addChunk_inv maxB s op r.1 r.2 hinv (hne op (by simp)) hadd)
        (fun o ho => hne o (List.mem_cons_of_mem _ ho)) happ

/-- Claim C1, amended: starting from an empty store, after any sequence
of `add_memory_chunk` calls with non-empty contents, every user's total
stored size is at most `max_total_bytes`, or else that user's most
recently added (last) chunk alone exceeds `max_total_bytes`. -/
theorem c1_budget_after_adds (maxB : Nat) (ops : List AddOp) (s : Store) (u : String)
    (hne : ∀ op ∈ ops, op.content ≠ "")
    (happ : applyAdds (emptyStore maxB) ops = .ok s) :
    sumSizes ((dictGet s.userMemories u).getD []) ≤ maxB
    ∨ ∃ c, ((dictGet s.userMemories u).getD []).getLast? = some c
        ∧ maxB < c.size := by
  have hempty : StoreInv maxB (emptyStore maxB) := by
    refine ⟨rfl, fun u => ⟨Or.inl ?_, List.Pairwise.nil, by simp [emptyStore, dictGet]⟩⟩
    show sumSizes ((dictGet [] u).getD []) ≤ maxB
    simp [dictGet, sumSizes]
  have hinv := applyAdds_inv maxB ops (emptyStore maxB) s hempty hne happ
  rcases (hinv.2 u).1 with h | ⟨c, hc, hsz⟩
  · left
    exact h
  · right
    refine ⟨c, ?_, hsz⟩
    rw [hc]
    rfl

/-- Claim C1, counterexample: with `max_total_bytes = 2`, adding a
3-byte chunk (accepted as the documented oversized exception) and then
an *empty* chunk leaves user `"u"` with total 3 > 2 while the most
recently added chunk has size 0: the empty add requires 0 bytes, so the
eviction loop frees nothing and the oversized chunk survives. -/
theorem c1_budget_counterexample :
    (applyAdds (emptyStore 2)
        [⟨"u", "aaa", "default"⟩, ⟨"u", "", "default"⟩]).toOption.map
      (fun s => (sumSizes ((dictGet s.userMemories "u").getD []),
                 ((dictGet s.userMemories "u").getD []).getLast?.map (·.size)))
    = some (3, some 0)
    ∧ 2 < 3 ∧ ¬ (2 < 0) := by
  refine ⟨by decide, by decide, by decide⟩

/-- The add sequence used to witness claim C1. -/
def c1WitnessOps : List AddOp :=
  [⟨"u", "aaa", "default"⟩, ⟨"u", "bb", "default"⟩]

/-- The store those adds produce. -/
def c1WitnessStore : Store :=
  ((applyAdds (emptyStore 40) c1WitnessOps).toOption).getD (emptyStore 40)

/-- Claim C1, witness: two non-empty adds under a 40-byte budget land in
the invariant. -/
theorem c1_budget_after_adds_witness :
    sumSizes ((dictGet c1WitnessStore.userMemories "u").getD []) ≤ 40
    ∨ ∃ c, ((dictGet c1WitnessStore.userMemories "u").getD []).getLast? = some c
        ∧ 40 < c.size :=
  c1_budget_after_adds 40 c1WitnessOps c1WitnessStore "u" (by decide) (by rfl)

/-! ### Claim C2: oldest-first eviction and the 10/20/30 scenario -/

/-- Claim C2: the eviction selection takes chunks from the front of the
timestamp-sorted list (oldest first), stops exactly when the freed
space reaches the requested amount or the list is exhausted (every
proper prefix frees strictly less), and in the concrete 10/20/30
scenario with `max_total_bytes = 40` the third add evicts the 10-byte
and 20-byte chunks, leaving only the 30-byte chunk. -/
theorem c2_eviction_oldest_first :
    (∀ (l : List MemoryChunk) (req : Nat),
      evictLoop req 0 (sortByTs l)
        = (sortByTs l).take (evictLoop req 0 (sortByTs l)).length
      ∧ (req ≤ sumSizes (evictLoop req 0 (sortByTs l))
         ∨ evictLoop req 0 (sortByTs l) = sortByTs l)
      ∧ (∀ k, k < (evictLoop req 0 (sortByTs l)).length →
          sumSizes ((sortByTs l).take k) < req))
    ∧ (applyAdds (emptyStore 40)
        [⟨"u", "aaaaaaaaaa", "default"⟩,
         ⟨"u", "aaaaaaaaaaaaaaaaaaaa", "default"⟩,
         ⟨"u", "aaaaaaaaaaaaaaaaaaaaaaaaaaaaaa", "default"⟩]).toOption.map
        (fun s => ((dictGet s.userMemories "u").getD []).map (·.size))
      = some [30] := by
  constructor
  · intro l req
    refine ⟨evictLoop_eq_take req (sortByTs l) 0, ?_, ?_⟩
    · rcases evictLoop_stop req (sortByTs l) 0 with h | h
      · left
        simpa using h
      · right
        exact h
    · intro k hk
      have h := evictLoop_minimal req (sortByTs l) 0 k hk
      simpa using h
  · decide

/-- Claim C2, witness: for the sorted 10/20 list, evicting for a 30-byte
request does not stop after the first chunk (the 10-byte prefix frees
less than 30). -/
theorem c2_eviction_oldest_first_witness :
    sumSizes ((sortByTs [MemoryChunk.make 0 "aaaaaaaaaa" 0 "default",
      MemoryChunk.make 1 "aaaaaaaaaaaaaaaaaaaa" 1 "default"]).take 1) < 30 :=
  (c2_eviction_oldest_first.1
    [MemoryChunk.make 0 "aaaaaaaaaa" 0 "default",
     MemoryChunk.make 1 "aaaaaaaaaaaaaaaaaaaa" 1 "default"] 30).2.2 1 (by decide)
